import Mathlib

/-!
# Verification of the move-decision core of `chess-online`

This file is a shallow embedding, in Lean 4, of the move-decision core of the
`chess-online` repository:

* `src/services/ai/aiService.ts` — static evaluator (`evaluatePosition`),
  minimax search with alpha-beta pruning (`minimax`), difficulty table
  (`difficultySettings`) and the move orchestrator (`findBestMove`);
* `src/services/api/geminiBackendService.ts` — the client side of the remote
  (Gemini) decision adapter (`getBestMove`);
* `lambda/geminiHandler.mjs` — the relay's move-format validation and its
  retry-once protocol (`validateMoveFormat`, the move branch of `handler`).

The chess rules themselves live in the external `chess.js` library (the spec's
"Rules Oracle").  The TypeScript code only uses it through a narrow interface
(`moves`, `move`, `undo`, `isGameOver`, `isCheckmate`, `isDraw`, `turn`,
`board`), so the embedding is parameterised by a structure `Oracle` holding
exactly those operations; a mutable `Chess` instance is modelled as an explicit
`ChessState` (current position plus undo history), and `chess.move`/`chess.undo`
become the pure `chessMove`/`chessUndo` on that state.

JavaScript numbers (the score values `-Infinity`, finite centipawn values,
`+Infinity`) are modelled by the three-constructor type `XScore` carrying a
rational in the finite case; the random draws of `Math.random()` are passed in
as explicit rational parameters.  Free text (prompts, relay replies) is
modelled as `List Char`.
-/

set_option maxRecDepth 16000

/-! ## Extended scores: JavaScript's `-Infinity`, finite numbers, `+Infinity` -/

inductive XScore : Type where
  | negInf : XScore
  | fin : ℚ → XScore
  | posInf : XScore
deriving DecidableEq, Repr

namespace XScore

def le : XScore → XScore → Prop
  | negInf, _ => True
  | fin _, negInf => False
  | fin a, fin b => a ≤ b
  | fin _, posInf => True
  | posInf, posInf => True
  | posInf, _ => False

def ble : XScore → XScore → Bool
  | negInf, _ => true
  | fin _, negInf => false
  | fin a, fin b => decide (a ≤ b)
  | fin _, posInf => true
  | posInf, posInf => true
  | posInf, _ => false

theorem le_iff_ble (a b : XScore) : le a b ↔ ble a b = true := by
  cases a <;> cases b <;> simp [le, ble]

instance : LinearOrder XScore where
  le := le
  le_refl a := by cases a <;> simp [le]
  le_trans a b c := by
    cases a <;> cases b <;> cases c <;> simp [le] <;> intro h1 h2 <;> exact h1.trans h2
  le_antisymm a b := by
    cases a <;> cases b <;> simp [le] <;> intro h1 h2 <;> exact le_antisymm h1 h2
  le_total a b := by
    cases a <;> cases b <;> simp [le] <;> exact le_total _ _
  decidableLE a b := decidable_of_iff _ (le_iff_ble a b).symm

theorem negInf_le (x : XScore) : negInf ≤ x := by cases x <;> exact trivial

theorem le_posInf (x : XScore) : x ≤ posInf := by cases x <;> exact trivial

theorem le_negInf_iff (x : XScore) : x ≤ negInf ↔ x = negInf := by
  cases x <;> simp [LE.le, le]

theorem posInf_le_iff (x : XScore) : posInf ≤ x ↔ x = posInf := by
  cases x <;> simp [LE.le, le]

theorem negInf_lt_fin (q : ℚ) : negInf < fin q := by
  rw [lt_iff_not_ge]
  simp [GE.ge, LE.le, le]

theorem fin_lt_posInf (q : ℚ) : fin q < posInf := by
  rw [lt_iff_not_ge]
  simp [GE.ge, LE.le, le]

theorem negInf_lt_posInf : (negInf : XScore) < posInf := by
  rw [lt_iff_not_ge]
  simp [GE.ge, LE.le, le]

/-- Addition of a finite rational to an extended score, with the JavaScript
convention that `±Infinity + x = ±Infinity`. -/
def addQ : XScore → ℚ → XScore
  | negInf, _ => negInf
  | fin a, q => fin (a + q)
  | posInf, _ => posInf

theorem addQ_zero (x : XScore) : addQ x 0 = x := by
  cases x <;> simp [addQ]

end XScore

/-! ## Data model

`Color` and `PieceType` mirror chess.js's `'w' | 'b'` and `'p' | 'n' | 'b' |
'r' | 'q' | 'k'`.  A `MoveRec` is the `{from, to, promotion?}` record that
`findBestMove` returns (field `from` is a Lean keyword, hence `fromSq`/`toSq`);
its square names are kept as raw character lists, matching the TypeScript
strings. -/

inductive Color : Type where
  | w : Color
  | b : Color
deriving DecidableEq, Repr

inductive PieceType : Type where
  | p : PieceType
  | n : PieceType
  | b : PieceType
  | r : PieceType
  | q : PieceType
  | k : PieceType
deriving DecidableEq, Repr

structure Piece : Type where
  type : PieceType
  color : Color
deriving DecidableEq, Repr

structure MoveRec : Type where
  fromSq : List Char
  toSq : List Char
  promotion : Option (List Char)
deriving DecidableEq, Repr

/-- The chess-rules oracle: the slice of the external `chess.js` interface the
move-decision core reads.  `moves` is `chess.moves({verbose: true})`, `next`
is the position reached by `chess.move(m)`, `board` is `chess.board()` (rank 8
first), and `toRec` projects a verbose move onto its `from`/`to`/`promotion`
fields. -/
structure Oracle (Pos Mv : Type) : Type where
  moves : Pos → List Mv
  next : Pos → Mv → Pos
  isGameOver : Pos → Bool
  isCheckmate : Pos → Bool
  isDraw : Pos → Bool
  turn : Pos → Color
  board : Pos → List (List (Option Piece))
  toRec : Mv → MoveRec

/-- A mutable chess.js `Chess` instance: its current position plus the stack of
positions that `chess.undo()` would restore.  `new Chess(fen)` is
`⟨p, []⟩`. -/
structure ChessState (Pos : Type) : Type where
  pos : Pos
  hist : List Pos
deriving DecidableEq, Repr

/-- `chess.move(m)`: advance to the next position, pushing the current one on
the undo stack. -/
def chessMove {Pos Mv : Type} (O : Oracle Pos Mv) (st : ChessState Pos) (m : Mv) :
    ChessState Pos :=
  ⟨O.next st.pos m, st.pos :: st.hist⟩

/-- `chess.undo()`: restore the last pushed position (a no-op on an empty
history, as in chess.js). -/
def chessUndo {Pos : Type} (st : ChessState Pos) : ChessState Pos :=
  match st.hist with
  | [] => st
  | p :: h => ⟨p, h⟩

theorem chessUndo_chessMove {Pos Mv : Type} (O : Oracle Pos Mv)
    (st : ChessState Pos) (m : Mv) : chessUndo (chessMove O st m) = st := by
  simp [chessMove, chessUndo]

theorem chessMove_pos {Pos Mv : Type} (O : Oracle Pos Mv)
    (st : ChessState Pos) (m : Mv) : (chessMove O st m).pos = O.next st.pos m :=
  rfl

/-! ## Difficulty policy (`difficultySettings` in aiService.ts) -/

inductive AIDifficulty : Type where
  | beginner : AIDifficulty
  | intermediate : AIDifficulty
  | advanced : AIDifficulty
  | master : AIDifficulty
deriving DecidableEq, Repr

structure DifficultySettings : Type where
  depth : Nat
  makeRandomMoves : Bool
  randomMoveChance : ℚ
  evaluationNoise : ℚ
deriving DecidableEq, Repr

def difficultySettings : AIDifficulty → DifficultySettings
  | .beginner => ⟨1, true, 2/5, 2⟩
  | .intermediate => ⟨2, true, 1/5, 1⟩
  | .advanced => ⟨3, true, 1/10, 1/2⟩
  | .master => ⟨4, false, 0, 0⟩

/-! ## Static evaluator (`evaluatePosition` in aiService.ts) -/

/-- `pieceValues` from aiService.ts.  Note the king is worth `20000` in the
source. -/
def pieceValues : PieceType → ℚ
  | .p => 100
  | .n => 320
  | .b => 330
  | .r => 500
  | .q => 900
  | .k => 20000

/-- `pieceSquareTables` from aiService.ts: one 8×8 grid per piece kind, row 0
corresponding to `chess.board()`'s first row (rank 8). -/
def pieceSquareTables : PieceType → List (List ℚ)
  | .p =>
    [[0, 0, 0, 0, 0, 0, 0, 0],
     [50, 50, 50, 50, 50, 50, 50, 50],
     [10, 10, 20, 30, 30, 20, 10, 10],
     [5, 5, 10, 25, 25, 10, 5, 5],
     [0, 0, 0, 20, 20, 0, 0, 0],
     [5, -5, -10, 0, 0, -10, -5, 5],
     [5, 10, 10, -20, -20, 10, 10, 5],
     [0, 0, 0, 0, 0, 0, 0, 0]]
  | .n =>
    [[-50, -40, -30, -30, -30, -30, -40, -50],
     [-40, -20, 0, 0, 0, 0, -20, -40],
     [-30, 0, 10, 15, 15, 10, 0, -30],
     [-30, 5, 15, 20, 20, 15, 5, -30],
     [-30, 0, 15, 20, 20, 15, 0, -30],
     [-30, 5, 10, 15, 15, 10, 5, -30],
     [-40, -20, 0, 5, 5, 0, -20, -40],
     [-50, -40, -30, -30, -30, -30, -40, -50]]
  | .b =>
    [[-20, -10, -10, -10, -10, -10, -10, -20],
     [-10, 0, 0, 0, 0, 0, 0, -10],
     [-10, 0, 10, 10, 10, 10, 0, -10],
     [-10, 5, 5, 10, 10, 5, 5, -10],
     [-10, 0, 5, 10, 10, 5, 0, -10],
     [-10, 5, 5, 5, 5, 5, 5, -10],
     [-10, 0, 5, 0, 0, 5, 0, -10],
     [-20, -10, -10, -10, -10, -10, -10, -20]]
  | .r =>
    [[0, 0, 0, 0, 0, 0, 0, 0],
     [5, 10, 10, 10, 10, 10, 10, 5],
     [-5, 0, 0, 0, 0, 0, 0, -5],
     [-5, 0, 0, 0, 0, 0, 0, -5],
     [-5, 0, 0, 0, 0, 0, 0, -5],
     [-5, 0, 0, 0, 0, 0, 0, -5],
     [-5, 0, 0, 0, 0, 0, 0, -5],
     [0, 0, 0, 5, 5, 0, 0, 0]]
  | .q =>
    [[-20, -10, -10, -5, -5, -10, -10, -20],
     [-10, 0, 0, 0, 0, 0, 0, -10],
     [-10, 0, 5, 5, 5, 5, 0, -10],
     [-5, 0, 5, 5, 5, 5, 0, -5],
     [0, 0, 5, 5, 5, 5, 0, -5],
     [-10, 5, 5, 5, 5, 5, 0, -10],
     [-10, 0, 5, 0, 0, 0, 0, -10],
     [-20, -10, -10, -5, -5, -10, -10, -20]]
  | .k =>
    [[-30, -40, -40, -50, -50, -40, -40, -30],
     [-30, -40, -40, -50, -50, -40, -40, -30],
     [-30, -40, -40, -50, -50, -40, -40, -30],
     [-30, -40, -40, -50, -50, -40, -40, -30],
     [-20, -30, -30, -40, -40, -30, -30, -20],
     [-10, -20, -20, -20, -20, -20, -20, -10],
     [20, 20, 0, 0, 0, 0, 20, 20],
     [20, 30, 10, 0, 0, 10, 30, 20]]

/-- The positional bonus of line 172 of aiService.ts:
`pieceSquareTables[type][color === 'w' ? i : 7 - i][j]`. -/
def pstBonus (t : PieceType) (c : Color) (i j : Nat) : ℚ :=
  (((pieceSquareTables t).getD (if c = .w then i else 7 - i) []).getD j 0)

/-- The contribution of cell `(i, j)` of `chess.board()` to the evaluation sum
(lines 166-176 of aiService.ts), parameterised by the material table so that
the source table and the spec's table can be compared. -/
def cellScore (vals : PieceType → ℚ) (board : List (List (Option Piece)))
    (i j : Nat) : ℚ :=
  match (board.getD i []).getD j none with
  | none => 0
  | some piece =>
    let value := vals piece.type
    let positionValue := pstBonus piece.type piece.color i j
    if piece.color = .w then value + positionValue else -(value + positionValue)

/-- The double loop `for i in 0..7, for j in 0..7` of aiService.ts lines
164-178, summing material and positional values. -/
def boardScore (vals : PieceType → ℚ) (board : List (List (Option Piece))) : ℚ :=
  ((List.range 8).map (fun i =>
    ((List.range 8).map (fun j => cellScore vals board i j)).sum)).sum

/-- `evaluatePosition` from aiService.ts lines 150-181: mate sentinel, draw
zero, otherwise material + piece-square sum (positive favours white). -/
def evaluatePosition {Pos Mv : Type} (O : Oracle Pos Mv) (p : Pos) : ℚ :=
  if O.isCheckmate p then (if O.turn p = .w then -10000 else 10000)
  else if O.isDraw p then 0
  else boardScore pieceValues (O.board p)

/-! ## Search engine (`minimax` in aiService.ts lines 192-232)

The source mutates one `Chess` instance (`chess.move` … recurse … `chess.undo`)
and carries `alpha`/`beta` in local variables, breaking out of the move loop
once `beta <= alpha`.  `maxLoop`/`minLoop` are the two `for` loops, threading
the explicit `ChessState` and taking the recursive call as a function
argument. -/

/-- The maximizing `for` loop of `minimax` (lines 206-216): running `maxEval`,
rising `alpha`, break on `beta <= alpha`. -/
def maxLoop {Pos Mv : Type} (O : Oracle Pos Mv)
    (recur : ChessState Pos → XScore → XScore → XScore × ChessState Pos) :
    List Mv → ChessState Pos → XScore → XScore → XScore → XScore × ChessState Pos
  | [], st, maxEval, _alpha, _beta => (maxEval, st)
  | m :: ms, st, maxEval, alpha, beta =>
    let r := recur (chessMove O st m) alpha beta
    let st2 := chessUndo r.2
    let maxEval1 := max maxEval r.1
    let alpha1 := max alpha r.1
    if beta ≤ alpha1 then (maxEval1, st2)
    else maxLoop O recur ms st2 maxEval1 alpha1 beta

/-- The minimizing `for` loop of `minimax` (lines 219-229): running `minEval`,
falling `beta`, break on `beta <= alpha`. -/
def minLoop {Pos Mv : Type} (O : Oracle Pos Mv)
    (recur : ChessState Pos → XScore → XScore → XScore × ChessState Pos) :
    List Mv → ChessState Pos → XScore → XScore → XScore → XScore × ChessState Pos
  | [], st, minEval, _alpha, _beta => (minEval, st)
  | m :: ms, st, minEval, alpha, beta =>
    let r := recur (chessMove O st m) alpha beta
    let st2 := chessUndo r.2
    let minEval1 := min minEval r.1
    let beta1 := min beta r.1
    if beta1 ≤ alpha then (minEval1, st2)
    else minLoop O recur ms st2 minEval1 alpha beta1

/-- `minimax(chess, depth, alpha, beta, isMaximizing)` from aiService.ts,
returning the score together with the final state of the mutated `Chess`
instance. -/
def minimax {Pos Mv : Type} (O : Oracle Pos Mv) (st : ChessState Pos)
    (depth : Nat) (alpha beta : XScore) (isMaximizing : Bool) :
    XScore × ChessState Pos :=
  match depth with
  | 0 => (.fin (evaluatePosition O st.pos), st)
  | d + 1 =>
    if O.isGameOver st.pos then (.fin (evaluatePosition O st.pos), st)
    else
      let moves := O.moves st.pos
      if isMaximizing then
        maxLoop O (fun st1 a b => minimax O st1 d a b false) moves st .negInf alpha beta
      else
        minLoop O (fun st1 a b => minimax O st1 d a b true) moves st .posInf alpha beta

/-! ### Pure value of the search

`minimaxVal` computes the same score as `minimax` as a function of the position
alone; `minimax_eq_minimaxVal` proves both that the score only depends on the
position and that the search hands the `Chess` instance back exactly as it
received it. -/

def maxLoopVal {Pos Mv : Type} (O : Oracle Pos Mv)
    (recur : Pos → XScore → XScore → XScore) :
    List Mv → Pos → XScore → XScore → XScore → XScore
  | [], _, maxEval, _alpha, _beta => maxEval
  | m :: ms, p, maxEval, alpha, beta =>
    let ev := recur (O.next p m) alpha beta
    let maxEval1 := max maxEval ev
    let alpha1 := max alpha ev
    if beta ≤ alpha1 then maxEval1
    else maxLoopVal O recur ms p maxEval1 alpha1 beta

def minLoopVal {Pos Mv : Type} (O : Oracle Pos Mv)
    (recur : Pos → XScore → XScore → XScore) :
    List Mv → Pos → XScore → XScore → XScore → XScore
  | [], _, minEval, _alpha, _beta => minEval
  | m :: ms, p, minEval, alpha, beta =>
    let ev := recur (O.next p m) alpha beta
    let minEval1 := min minEval ev
    let beta1 := min beta ev
    if beta1 ≤ alpha then minEval1
    else minLoopVal O recur ms p minEval1 alpha beta1

def minimaxVal {Pos Mv : Type} (O : Oracle Pos Mv) (p : Pos) (depth : Nat)
    (alpha beta : XScore) (isMaximizing : Bool) : XScore :=
  match depth with
  | 0 => .fin (evaluatePosition O p)
  | d + 1 =>
    if O.isGameOver p then .fin (evaluatePosition O p)
    else
      let moves := O.moves p
      if isMaximizing then
        maxLoopVal O (fun q a b => minimaxVal O q d a b false) moves p .negInf alpha beta
      else
        minLoopVal O (fun q a b => minimaxVal O q d a b true) moves p .posInf alpha beta

theorem maxLoop_eq_val {Pos Mv : Type} (O : Oracle Pos Mv)
    (recur : ChessState Pos → XScore → XScore → XScore × ChessState Pos)
    (recurV : Pos → XScore → XScore → XScore)
    (hrec : ∀ st1 a b, recur st1 a b = (recurV st1.pos a b, st1)) :
    ∀ (ms : List Mv) (st : ChessState Pos) (maxEval alpha beta : XScore),
      maxLoop O recur ms st maxEval alpha beta =
        (maxLoopVal O recurV ms st.pos maxEval alpha beta, st) := by
  intro ms
  induction ms with
  | nil => intro st maxEval alpha beta; rfl
  | cons m ms ih =>
    intro st maxEval alpha beta
    simp only [maxLoop, maxLoopVal, hrec, chessUndo_chessMove, chessMove_pos]
    split <;> simp [ih]

theorem minLoop_eq_val {Pos Mv : Type} (O : Oracle Pos Mv)
    (recur : ChessState Pos → XScore → XScore → XScore × ChessState Pos)
    (recurV : Pos → XScore → XScore → XScore)
    (hrec : ∀ st1 a b, recur st1 a b = (recurV st1.pos a b, st1)) :
    ∀ (ms : List Mv) (st : ChessState Pos) (minEval alpha beta : XScore),
      minLoop O recur ms st minEval alpha beta =
        (minLoopVal O recurV ms st.pos minEval alpha beta, st) := by
  intro ms
  induction ms with
  | nil => intro st minEval alpha beta; rfl
  | cons m ms ih =>
    intro st minEval alpha beta
    simp only [minLoop, minLoopVal, hrec, chessUndo_chessMove, chessMove_pos]
    split <;> simp [ih]

/-- The search computes a pure function of the position and restores the
`Chess` instance it was handed. -/
theorem minimax_eq_minimaxVal {Pos Mv : Type} (O : Oracle Pos Mv) :
    ∀ (depth : Nat) (st : ChessState Pos) (alpha beta : XScore) (f : Bool),
      minimax O st depth alpha beta f =
        (minimaxVal O st.pos depth alpha beta f, st) := by
  intro depth
  induction depth with
  | zero => intro st alpha beta f; rfl
  | succ d ih =>
    intro st alpha beta f
    simp only [minimax, minimaxVal]
    split
    · rfl
    · split
      · exact maxLoop_eq_val O _ _ (fun st1 a b => ih st1 a b false) _ st _ _ _
      · exact minLoop_eq_val O _ _ (fun st1 a b => ih st1 a b true) _ st _ _ _

/-! ## Folding with `max`/`min`: helper lemmas

The naive minimax value of a node is a `foldl` of `max` (or `min`) over its
children; these small lemmas about such folds drive the alpha-beta soundness
proof. -/

section FoldLemmas

variable {α β : Type} [LinearOrder α] (g : β → α)

theorem foldl_max_init_le (l : List β) :
    ∀ init : α, init ≤ l.foldl (fun acc m => max acc (g m)) init := by
  induction l with
  | nil => intro init; simp
  | cons m ms ih =>
    intro init
    simpa using le_trans (le_max_left init (g m)) (ih (max init (g m)))

theorem foldl_max_mono (l : List β) :
    ∀ {a b : α}, a ≤ b →
      l.foldl (fun acc m => max acc (g m)) a ≤ l.foldl (fun acc m => max acc (g m)) b := by
  induction l with
  | nil => intro a b h; simpa using h
  | cons m ms ih =>
    intro a b h
    simpa using ih (max_le_max h (le_refl (g m)))

theorem foldl_max_elem_le (l : List β) {m : β} (hm : m ∈ l) :
    ∀ init : α, g m ≤ l.foldl (fun acc m => max acc (g m)) init := by
  induction l with
  | nil => exact absurd hm (List.not_mem_nil m)
  | cons m' ms ih =>
    intro init
    rcases List.mem_cons.mp hm with h | h
    · subst h
      simpa using le_trans (le_max_right init (g m)) (foldl_max_init_le g ms (max init (g m)))
    · simpa using ih h (max init (g m'))

theorem foldl_max_le (l : List β) :
    ∀ {init c : α}, init ≤ c → (∀ m ∈ l, g m ≤ c) →
      l.foldl (fun acc m => max acc (g m)) init ≤ c := by
  induction l with
  | nil => intro init c h _; simpa using h
  | cons m ms ih =>
    intro init c h hall
    simp only [List.foldl_cons]
    exact ih (max_le h (hall m (List.mem_cons_self m ms)))
      (fun m' hm' => hall m' (List.mem_cons_of_mem m hm'))

theorem foldl_max_attained (l : List β) :
    ∀ init : α, l.foldl (fun acc m => max acc (g m)) init = init ∨
      ∃ m ∈ l, l.foldl (fun acc m => max acc (g m)) init = g m := by
  induction l with
  | nil => intro init; left; rfl
  | cons m ms ih =>
    intro init
    simp only [List.foldl_cons]
    rcases ih (max init (g m)) with h | ⟨m', hm', h⟩
    · rcases max_choice init (g m) with hc | hc
      · left; rw [h, hc]
      · right; exact ⟨m, List.mem_cons_self m ms, by rw [h, hc]⟩
    · right; exact ⟨m', List.mem_cons_of_mem m hm', h⟩

theorem le_foldl_min (l : List β) :
    ∀ init : α, l.foldl (fun acc m => min acc (g m)) init ≤ init := by
  induction l with
  | nil => intro init; simp
  | cons m ms ih =>
    intro init
    simpa using le_trans (ih (min init (g m))) (min_le_left init (g m))

theorem foldl_min_mono (l : List β) :
    ∀ {a b : α}, a ≤ b →
      l.foldl (fun acc m => min acc (g m)) a ≤ l.foldl (fun acc m => min acc (g m)) b := by
  induction l with
  | nil => intro a b h; simpa using h
  | cons m ms ih =>
    intro a b h
    simpa using ih (min_le_min h (le_refl (g m)))

theorem foldl_min_le_elem (l : List β) {m : β} (hm : m ∈ l) :
    ∀ init : α, l.foldl (fun acc m => min acc (g m)) init ≤ g m := by
  induction l with
  | nil => exact absurd hm (List.not_mem_nil m)
  | cons m' ms ih =>
    intro init
    rcases List.mem_cons.mp hm with h | h
    · subst h
      simpa using le_trans (le_foldl_min g ms (min init (g m))) (min_le_right init (g m))
    · simpa using ih h (min init (g m'))

theorem le_foldl_min_of_le (l : List β) :
    ∀ {init c : α}, c ≤ init → (∀ m ∈ l, c ≤ g m) →
      c ≤ l.foldl (fun acc m => min acc (g m)) init := by
  induction l with
  | nil => intro init c h _; simpa using h
  | cons m ms ih =>
    intro init c h hall
    simp only [List.foldl_cons]
    exact ih (le_min h (hall m (List.mem_cons_self m ms)))
      (fun m' hm' => hall m' (List.mem_cons_of_mem m hm'))

theorem foldl_min_attained (l : List β) :
    ∀ init : α, l.foldl (fun acc m => min acc (g m)) init = init ∨
      ∃ m ∈ l, l.foldl (fun acc m => min acc (g m)) init = g m := by
  induction l with
  | nil => intro init; left; rfl
  | cons m ms ih =>
    intro init
    simp only [List.foldl_cons]
    rcases ih (min init (g m)) with h | ⟨m', hm', h⟩
    · rcases min_choice init (g m) with hc | hc
      · left; rw [h, hc]
      · right; exact ⟨m, List.mem_cons_self m ms, by rw [h, hc]⟩
    · right; exact ⟨m', List.mem_cons_of_mem m hm', h⟩

end FoldLemmas

/-! ## Alpha-beta soundness

`minimaxNoPrune` is the spec's notion of the search: plain minimax over the
same move enumeration and the same static evaluator, with no window and no
cutoff ("alpha-beta pruning skips subtrees proven unable to affect the final
minimax result").  The lemmas below are the classical Knuth–Moore bounds for
fail-soft alpha-beta, proved for the loops of `minimax` exactly as written
(running value separate from `alpha`/`beta`, break once `beta ≤ alpha`). -/

def minimaxNoPrune {Pos Mv : Type} (O : Oracle Pos Mv) : Nat → Pos → Bool → XScore
  | 0, p, _ => .fin (evaluatePosition O p)
  | d + 1, p, f =>
    if O.isGameOver p then .fin (evaluatePosition O p)
    else if f then
      (O.moves p).foldl
        (fun acc m => max acc (minimaxNoPrune O d (O.next p m) false)) .negInf
    else
      (O.moves p).foldl
        (fun acc m => min acc (minimaxNoPrune O d (O.next p m) true)) .posInf

/-- Knuth–Moore bounds for the maximizing loop: writing `R` for the loop's
result and `V` for the plain `foldl max` of the children's true values, a
fail-low `R` upper-bounds `V`, a fail-high `R` lower-bounds `V`, and an
in-window `R` equals `V`. -/
theorem maxLoopVal_km {Pos Mv : Type} (O : Oracle Pos Mv)
    (rv : Pos → XScore → XScore → XScore) (tv : Pos → XScore) (p : Pos)
    (hchild : ∀ (m : Mv) (a b : XScore), a < b →
      (rv (O.next p m) a b ≤ a → tv (O.next p m) ≤ rv (O.next p m) a b) ∧
      (b ≤ rv (O.next p m) a b → rv (O.next p m) a b ≤ tv (O.next p m)) ∧
      (a < rv (O.next p m) a b → rv (O.next p m) a b < b →
        rv (O.next p m) a b = tv (O.next p m))) :
    ∀ (ms : List Mv) (best alpha beta : XScore), alpha < beta → best ≤ alpha →
      (maxLoopVal O rv ms p best alpha beta ≤ alpha →
        ms.foldl (fun acc m => max acc (tv (O.next p m))) best ≤
          maxLoopVal O rv ms p best alpha beta) ∧
      (beta ≤ maxLoopVal O rv ms p best alpha beta →
        maxLoopVal O rv ms p best alpha beta ≤
          ms.foldl (fun acc m => max acc (tv (O.next p m))) best) ∧
      (alpha < maxLoopVal O rv ms p best alpha beta →
        maxLoopVal O rv ms p best alpha beta < beta →
        maxLoopVal O rv ms p best alpha beta =
          ms.foldl (fun acc m => max acc (tv (O.next p m))) best) ∧
      best ≤ maxLoopVal O rv ms p best alpha beta := by
  intro ms
  induction ms with
  | nil =>
    intro best alpha beta _ _
    exact ⟨fun _ => le_refl _, fun _ => le_refl _, fun _ _ => rfl, le_refl _⟩
  | cons m rest ih =>
    intro best alpha beta hab hba
    obtain ⟨cA, cB, cC⟩ := hchild m alpha beta hab
    simp only [maxLoopVal, List.foldl_cons]
    by_cases hbreak : beta ≤ max alpha (rv (O.next p m) alpha beta)
    · rw [if_pos hbreak]
      have hbe : beta ≤ rv (O.next p m) alpha beta := by
        rcases max_choice alpha (rv (O.next p m) alpha beta) with hc | hc
        · rw [hc] at hbreak; exact absurd hbreak (not_le_of_lt hab)
        · rwa [hc] at hbreak
      have hevt : rv (O.next p m) alpha beta ≤ tv (O.next p m) := cB hbe
      have hR : beta ≤ max best (rv (O.next p m) alpha beta) :=
        le_trans hbe (le_max_right _ _)
      refine ⟨?_, ?_, ?_, le_max_left _ _⟩
      · intro hle; exact absurd (le_trans hR hle) (not_le_of_lt hab)
      · intro _
        exact le_trans (max_le_max (le_refl best) hevt)
          (foldl_max_init_le _ rest _)
      · intro _ hlt; exact absurd hR (not_le_of_lt hlt)
    · rw [if_neg hbreak]
      have hab1 : max alpha (rv (O.next p m) alpha beta) < beta := not_le.mp hbreak
      have hba1 : max best (rv (O.next p m) alpha beta) ≤
          max alpha (rv (O.next p m) alpha beta) :=
        max_le_max hba (le_refl _)
      obtain ⟨iA, iB, iC, iD⟩ := ih (max best (rv (O.next p m) alpha beta))
        (max alpha (rv (O.next p m) alpha beta)) beta hab1 hba1
      by_cases hea : rv (O.next p m) alpha beta ≤ alpha
      · -- the child failed low: its true value is at most `ev ≤ alpha`
        have hta : tv (O.next p m) ≤ rv (O.next p m) alpha beta := cA hea
        have halpha : max alpha (rv (O.next p m) alpha beta) = alpha := max_eq_left hea
        have hVle : rest.foldl (fun acc m => max acc (tv (O.next p m))) (max best (tv (O.next p m))) ≤
            rest.foldl (fun acc m => max acc (tv (O.next p m))) (max best (rv (O.next p m) alpha beta)) :=
          foldl_max_mono _ rest (max_le_max (le_refl best) hta)
        have hbestR : max best (rv (O.next p m) alpha beta) ≤ alpha :=
          le_trans hba1 (le_of_eq halpha)
        refine ⟨?_, ?_, ?_, ?_⟩
        · intro h; exact le_trans hVle (iA (le_trans h (le_max_left alpha _)))
        · intro h
          rcases foldl_max_attained (fun m => tv (O.next p m)) rest
              (max best (rv (O.next p m) alpha beta)) with hatt | ⟨m', hm', hatt⟩
          · exfalso
            have h1 := iB h
            rw [hatt] at h1
            exact absurd (le_trans h (le_trans h1 hbestR)) (not_le_of_lt hab)
          · have h1 : maxLoopVal O rv rest p (max best (rv (O.next p m) alpha beta))
                (max alpha (rv (O.next p m) alpha beta)) beta ≤
                tv (O.next p m') := by rw [← hatt]; exact iB h
            exact le_trans h1 (foldl_max_elem_le (fun m => tv (O.next p m)) rest hm' _)
        · intro h1 h2
          have hRV := iC (lt_of_le_of_lt (le_of_eq halpha) h1) h2
          refine le_antisymm ?_ ?_
          · rw [hRV]
            rcases foldl_max_attained (fun m => tv (O.next p m)) rest
                (max best (rv (O.next p m) alpha beta)) with hatt | ⟨m', hm', hatt⟩
            · exfalso; rw [hRV, hatt] at h1
              exact absurd (lt_of_le_of_lt hbestR h1) (lt_irrefl _)
            · rw [hatt]; exact foldl_max_elem_le (fun m => tv (O.next p m)) rest hm' _
          · refine foldl_max_le (fun m => tv (O.next p m)) rest (max_le ?_ ?_) ?_
            · exact le_of_lt (lt_of_le_of_lt (le_trans hba (le_of_eq rfl)) h1)
            · exact le_of_lt (lt_of_le_of_lt (le_trans hta hea) h1)
            · intro m'' hm''
              rw [hRV]
              exact foldl_max_elem_le (fun m => tv (O.next p m)) rest hm'' _
        · exact le_trans (le_max_left _ _) iD
      · -- the child's value fell inside the window, so it is exact
        have hae : alpha < rv (O.next p m) alpha beta := not_le.mp hea
        have halpha1 : max alpha (rv (O.next p m) alpha beta) = rv (O.next p m) alpha beta :=
          max_eq_right (le_of_lt hae)
        have hevb : rv (O.next p m) alpha beta < beta := by
          rw [halpha1] at hab1; exact hab1
        have hevt : rv (O.next p m) alpha beta = tv (O.next p m) := cC hae hevb
        rw [← hevt]
        refine ⟨?_, ?_, ?_, ?_⟩
        · intro h
          exfalso
          have h1 : rv (O.next p m) alpha beta ≤
              maxLoopVal O rv rest p (max best (rv (O.next p m) alpha beta))
                (max alpha (rv (O.next p m) alpha beta)) beta :=
            le_trans (le_max_right _ _) iD
          exact absurd (lt_of_lt_of_le hae (le_trans h1 h)) (lt_irrefl _)
        · exact iB
        · intro h1 h2
          by_cases hr : max alpha (rv (O.next p m) alpha beta) <
              maxLoopVal O rv rest p (max best (rv (O.next p m) alpha beta))
                (max alpha (rv (O.next p m) alpha beta)) beta
          · exact iC hr h2
          · have hrle := le_of_not_lt hr
            have h3 : rv (O.next p m) alpha beta ≤
                maxLoopVal O rv rest p (max best (rv (O.next p m) alpha beta))
                  (max alpha (rv (O.next p m) alpha beta)) beta :=
              le_trans (le_max_right _ _) iD
            have hre := le_antisymm (le_trans hrle (le_of_eq halpha1)) h3
            refine le_antisymm ?_ ?_
            · exact le_trans (le_of_eq hre) (le_trans (le_max_right best _)
                (foldl_max_init_le (fun m => tv (O.next p m)) rest _))
            · exact iA (le_trans (le_of_eq hre) (le_max_right alpha _))
        · exact le_trans (le_max_left _ _) iD

/-- Knuth–Moore bounds for the minimizing loop, dual to `maxLoopVal_km`. -/
theorem minLoopVal_km {Pos Mv : Type} (O : Oracle Pos Mv)
    (rv : Pos → XScore → XScore → XScore) (tv : Pos → XScore) (p : Pos)
    (hchild : ∀ (m : Mv) (a b : XScore), a < b →
      (rv (O.next p m) a b ≤ a → tv (O.next p m) ≤ rv (O.next p m) a b) ∧
      (b ≤ rv (O.next p m) a b → rv (O.next p m) a b ≤ tv (O.next p m)) ∧
      (a < rv (O.next p m) a b → rv (O.next p m) a b < b →
        rv (O.next p m) a b = tv (O.next p m))) :
    ∀ (ms : List Mv) (best alpha beta : XScore), alpha < beta → beta ≤ best →
      (minLoopVal O rv ms p best alpha beta ≤ alpha →
        ms.foldl (fun acc m => min acc (tv (O.next p m))) best ≤
          minLoopVal O rv ms p best alpha beta) ∧
      (beta ≤ minLoopVal O rv ms p best alpha beta →
        minLoopVal O rv ms p best alpha beta ≤
          ms.foldl (fun acc m => min acc (tv (O.next p m))) best) ∧
      (alpha < minLoopVal O rv ms p best alpha beta →
        minLoopVal O rv ms p best alpha beta < beta →
        minLoopVal O rv ms p best alpha beta =
          ms.foldl (fun acc m => min acc (tv (O.next p m))) best) ∧
      minLoopVal O rv ms p best alpha beta ≤ best := by
  intro ms
  induction ms with
  | nil =>
    intro best alpha beta _ _
    exact ⟨fun _ => le_refl _, fun _ => le_refl _, fun _ _ => rfl, le_refl _⟩
  | cons m rest ih =>
    intro best alpha beta hab hbb
    obtain ⟨cA, cB, cC⟩ := hchild m alpha beta hab
    simp only [minLoopVal, List.foldl_cons]
    by_cases hbreak : min beta (rv (O.next p m) alpha beta) ≤ alpha
    · rw [if_pos hbreak]
      have hea : rv (O.next p m) alpha beta ≤ alpha := by
        rcases min_choice beta (rv (O.next p m) alpha beta) with hc | hc
        · rw [hc] at hbreak; exact absurd hbreak (not_le_of_lt hab)
        · rwa [hc] at hbreak
      have hte : tv (O.next p m) ≤ rv (O.next p m) alpha beta := cA hea
      have hR : min best (rv (O.next p m) alpha beta) ≤ alpha :=
        le_trans (min_le_right _ _) hea
      refine ⟨?_, ?_, ?_, min_le_left _ _⟩
      · intro _
        exact le_trans (le_foldl_min _ rest _)
          (min_le_min (le_refl best) hte)
      · intro hge; exact absurd (le_trans hge hR) (not_le_of_lt hab)
      · intro hlt _; exact absurd hR (not_le_of_lt hlt)
    · rw [if_neg hbreak]
      have hab1 : alpha < min beta (rv (O.next p m) alpha beta) := not_le.mp hbreak
      have hbb1 : min beta (rv (O.next p m) alpha beta) ≤
          min best (rv (O.next p m) alpha beta) :=
        min_le_min hbb (le_refl _)
      obtain ⟨iA, iB, iC, iD⟩ := ih (min best (rv (O.next p m) alpha beta))
        alpha (min beta (rv (O.next p m) alpha beta)) hab1 hbb1
      by_cases heb : beta ≤ rv (O.next p m) alpha beta
      · -- the child failed high: its true value is at least `ev ≥ beta`
        have het : rv (O.next p m) alpha beta ≤ tv (O.next p m) := cB heb
        have hbeta : min beta (rv (O.next p m) alpha beta) = beta := min_eq_left heb
        have hbestR : beta ≤ min best (rv (O.next p m) alpha beta) :=
          le_trans (le_of_eq hbeta.symm) hbb1
        refine ⟨?_, ?_, ?_, ?_⟩
        · intro h
          rcases foldl_min_attained (fun m => tv (O.next p m)) rest
              (min best (rv (O.next p m) alpha beta)) with hatt | ⟨m', hm', hatt⟩
          · exfalso
            have h1 := iA h
            rw [hatt] at h1
            exact absurd (le_trans hbestR (le_trans h1 h)) (not_le_of_lt hab)
          · have h1 : tv (O.next p m') ≤
                minLoopVal O rv rest p (min best (rv (O.next p m) alpha beta))
                  alpha (min beta (rv (O.next p m) alpha beta)) := by
              rw [← hatt]; exact iA h
            exact le_trans (foldl_min_le_elem (fun m => tv (O.next p m)) rest hm' _) h1
        · intro h
          have h1 : minLoopVal O rv rest p (min best (rv (O.next p m) alpha beta))
              alpha (min beta (rv (O.next p m) alpha beta)) ≤
              rest.foldl (fun acc m => min acc (tv (O.next p m)))
                (min best (rv (O.next p m) alpha beta)) :=
            iB (le_trans (le_of_eq hbeta) h)
          exact le_trans h1
            (foldl_min_mono (fun m => tv (O.next p m)) rest
              (min_le_min (le_refl best) het))
        · intro h1 h2
          have hRV := iC h1 (lt_of_lt_of_le h2 (le_of_eq hbeta.symm))
          refine le_antisymm ?_ ?_
          · rw [hRV]
            exact foldl_min_mono (fun m => tv (O.next p m)) rest
              (min_le_min (le_refl best) het)
          · rcases foldl_min_attained (fun m => tv (O.next p m)) rest
                (min best (rv (O.next p m) alpha beta)) with hatt | ⟨m', hm', hatt⟩
            · exfalso
              rw [hatt] at hRV
              rw [hRV] at h2
              exact absurd (lt_of_le_of_lt hbestR h2) (lt_irrefl _)
            · have h4 : rest.foldl (fun acc m => min acc (tv (O.next p m)))
                  (min best (tv (O.next p m))) ≤ tv (O.next p m') :=
                foldl_min_le_elem (fun m => tv (O.next p m)) rest hm' _
              rw [hRV, hatt]
              exact h4
        · exact le_trans iD (min_le_left _ _)
      · -- the child's value fell inside the window, so it is exact
        have heb' : rv (O.next p m) alpha beta < beta := not_le.mp heb
        have hbeta1 : min beta (rv (O.next p m) alpha beta) = rv (O.next p m) alpha beta :=
          min_eq_right (le_of_lt heb')
        have hae : alpha < rv (O.next p m) alpha beta := by
          rw [hbeta1] at hab1; exact hab1
        have hevt : rv (O.next p m) alpha beta = tv (O.next p m) := cC hae heb'
        rw [← hevt]
        refine ⟨?_, ?_, ?_, ?_⟩
        · exact iA
        · intro h
          exfalso
          have h1 : minLoopVal O rv rest p (min best (rv (O.next p m) alpha beta))
              alpha (min beta (rv (O.next p m) alpha beta)) ≤
              rv (O.next p m) alpha beta :=
            le_trans iD (min_le_right _ _)
          exact absurd (lt_of_le_of_lt (le_trans h h1) heb') (lt_irrefl _)
        · intro h1 h2
          by_cases hr : minLoopVal O rv rest p (min best (rv (O.next p m) alpha beta))
              alpha (min beta (rv (O.next p m) alpha beta)) <
              min beta (rv (O.next p m) alpha beta)
          · exact iC h1 hr
          · have hrge := le_of_not_lt hr
            have h3 : minLoopVal O rv rest p (min best (rv (O.next p m) alpha beta))
                alpha (min beta (rv (O.next p m) alpha beta)) ≤
                rv (O.next p m) alpha beta :=
              le_trans iD (min_le_right _ _)
            have hre := le_antisymm h3 (le_trans (le_of_eq hbeta1.symm) hrge)
            refine le_antisymm ?_ ?_
            · exact iB (le_trans (le_of_eq hbeta1) (le_of_eq hre.symm))
            · exact le_trans (le_trans
                (le_foldl_min (fun m => tv (O.next p m)) rest _)
                (min_le_right best _)) (le_of_eq hre.symm)
        · exact le_trans iD (min_le_left _ _)

/-- Knuth–Moore bounds for the full search: relative to any window `a < b`,
the pruned value fail-low/fail-high bounds the plain minimax value, and equals
it when it falls strictly inside the window. -/
theorem minimaxVal_km {Pos Mv : Type} (O : Oracle Pos Mv) :
    ∀ (d : Nat) (p : Pos) (a b : XScore) (f : Bool), a < b →
      (minimaxVal O p d a b f ≤ a → minimaxNoPrune O d p f ≤ minimaxVal O p d a b f) ∧
      (b ≤ minimaxVal O p d a b f → minimaxVal O p d a b f ≤ minimaxNoPrune O d p f) ∧
      (a < minimaxVal O p d a b f → minimaxVal O p d a b f < b →
        minimaxVal O p d a b f = minimaxNoPrune O d p f) := by
  intro d
  induction d with
  | zero =>
    intro p a b f _
    exact ⟨fun _ => le_refl _, fun _ => le_refl _, fun _ _ => rfl⟩
  | succ d ih =>
    intro p a b f hab
    by_cases hgo : O.isGameOver p
    · simp [minimaxVal, minimaxNoPrune, hgo]
    · simp only [minimaxVal, minimaxNoPrune, hgo, if_false]
      cases f with
      | true =>
        simp only [if_true]
        obtain ⟨hA, hB, hC, _⟩ := maxLoopVal_km O
          (fun q a b => minimaxVal O q d a b false)
          (fun q => minimaxNoPrune O d q false) p
          (fun m a b hab => ih (O.next p m) a b false hab)
          (O.moves p) .negInf a b hab (XScore.negInf_le a)
        exact ⟨hA, hB, hC⟩
      | false =>
        simp only [Bool.false_eq_true, if_false]
        obtain ⟨hA, hB, hC, _⟩ := minLoopVal_km O
          (fun q a b => minimaxVal O q d a b true)
          (fun q => minimaxNoPrune O d q true) p
          (fun m a b hab => ih (O.next p m) a b true hab)
          (O.moves p) .posInf a b hab (XScore.le_posInf b)
        exact ⟨hA, hB, hC⟩

theorem xscore_trichotomy_eq (x v : XScore)
    (hA : x ≤ .negInf → v ≤ x) (hB : .posInf ≤ x → x ≤ v)
    (hC : .negInf < x → x < .posInf → x = v) : x = v := by
  cases x with
  | negInf => exact ((XScore.le_negInf_iff v).mp (hA (le_refl _))).symm
  | posInf => exact (((XScore.posInf_le_iff v).mp (hB (le_refl _)))).symm
  | fin q => exact hC (XScore.negInf_lt_fin q) (XScore.fin_lt_posInf q)

/-- At the open window `(-∞, +∞)` the pruned search value is exactly the plain
minimax value. -/
theorem minimaxVal_open_eq {Pos Mv : Type} (O : Oracle Pos Mv)
    (p : Pos) (d : Nat) (f : Bool) :
    minimaxVal O p d .negInf .posInf f = minimaxNoPrune O d p f := by
  obtain ⟨hA, hB, hC⟩ := minimaxVal_km O d p .negInf .posInf f XScore.negInf_lt_posInf
  exact xscore_trichotomy_eq _ _ hA hB hC

/-- The stateful source `minimax`, called with the open window, computes the
plain minimax value of the position it starts from. -/
theorem minimax_open_eq {Pos Mv : Type} (O : Oracle Pos Mv)
    (st : ChessState Pos) (d : Nat) (f : Bool) :
    (minimax O st d .negInf .posInf f).1 = minimaxNoPrune O d st.pos f := by
  rw [minimax_eq_minimaxVal]
  exact minimaxVal_open_eq O st.pos d f

/-! ## Remote decision adapter, client side
(`getBestMove` in geminiBackendService.ts lines 102-166)

The network call `sendGeminiRequest` either yields a `{content, success}`
payload or throws (fetch rejection, non-2xx status, JSON failure); its outcome
is the `Option GeminiResponse` parameter, `none` standing for the thrown
case. -/

/-- JavaScript's `String.prototype.trim()` on a character list. -/
def jsTrim (s : List Char) : List Char :=
  ((s.dropWhile Char.isWhitespace).reverse.dropWhile Char.isWhitespace).reverse

structure GeminiResponse : Type where
  content : List Char
  success : Bool
deriving DecidableEq, Repr

/-- `getBestMove` (geminiBackendService.ts lines 143-166): reject a failed
relay response, trim the content, and when at least 4 characters remain split
them positionally into `{from, to, promotion?}` — characters 0-1, 2-3 and
(when a 5th character exists) 4.  `Except.error` models the `throw` paths. -/
def getBestMove (resp : Option GeminiResponse) : Except (List Char) MoveRec :=
  match resp with
  | none => "Gemini API request failed".toList |> .error
  | some response =>
    if response.success then
      let moveText := jsTrim response.content
      if 4 ≤ moveText.length then
        .ok { fromSq := moveText.take 2
              toSq := (moveText.drop 2).take 2
              promotion :=
                if 4 < moveText.length then some ((moveText.drop 4).take 1) else none }
      else "Invalid response format from Gemini API".toList |> .error
    else "Failed to get move from Gemini API".toList |> .error

/-! ## Move orchestrator (`findBestMove` in aiService.ts lines 240-323) -/

/-- The scoring loop of `findBestMove` (lines 289-312): apply the move, draw
this move's noise, run the open-window search at `depth - 1` (maximizing
exactly when white is to move in the resulting position), undo, and keep the
move when its noisy score strictly improves on `bestScore` for the side to
move. -/
def scoreLoop {Pos Mv : Type} (O : Oracle Pos Mv) (settings : DifficultySettings)
    (noiseAt : Nat → ℚ) :
    List Mv → Nat → ChessState Pos → Option Mv → XScore → Option Mv × ChessState Pos
  | [], _, st, bestMove, _ => (bestMove, st)
  | m :: ms, i, st, bestMove, bestScore =>
    let st1 := chessMove O st m
    let noise := (noiseAt i * 2 - 1) * settings.evaluationNoise * 10
    let r := minimax O st1 (settings.depth - 1) .negInf .posInf
      (decide (O.turn st1.pos = Color.w))
    let score := XScore.addQ r.1 noise
    let st2 := chessUndo r.2
    if (O.turn st2.pos = Color.w ∧ bestScore < score) ∨
       (O.turn st2.pos = Color.b ∧ score < bestScore) then
      scoreLoop O settings noiseAt ms (i + 1) st2 (some m) score
    else
      scoreLoop O settings noiseAt ms (i + 1) st2 bestMove bestScore

/-- `findBestMove(fen, difficulty)` from aiService.ts.  `useGemini` is the
module flag `useGeminiAPI`; `resp` is the outcome of the network call made by
the remote adapter when it is consulted; `r1` (random-move gate), `r2`
(random index draw) and `noiseAt i` (the `i`-th root move's noise draw) are
the `Math.random()` outcomes of the local path. -/
def findBestMove {Pos Mv : Type} (O : Oracle Pos Mv) (useGemini : Bool)
    (resp : Option GeminiResponse) (p : Pos) (difficulty : AIDifficulty)
    (r1 r2 : ℚ) (noiseAt : Nat → ℚ) : Option MoveRec :=
  let remote : Option MoveRec :=
    if useGemini then
      match getBestMove resp with
      | .ok move => some move
      | .error _ => none
    else none
  match remote with
  | some move => some move
  | none =>
    -- Local implementation
    let st : ChessState Pos := ⟨p, []⟩
    let settings := difficultySettings difficulty
    if O.isGameOver st.pos then none
    else
      let moves := O.moves st.pos
      if settings.makeRandomMoves ∧ r1 < settings.randomMoveChance then
        match moves[(⌊r2 * (moves.length : ℚ)⌋).toNat]? with
        | some randomMove => some (O.toRec randomMove)
        | none => none
      else
        ((scoreLoop O settings noiseAt moves 0 st none
          (if O.turn st.pos = Color.w then XScore.negInf else XScore.posInf)).1).map
          O.toRec

/-- The search score the scoring loop assigns to root move `m` of position
`p` (before noise): open-window search at `depth - 1` on the position after
`m`, maximizing exactly when white is then to move. -/
def rootScore {Pos Mv : Type} (O : Oracle Pos Mv) (p : Pos) (depth : Nat)
    (m : Mv) : XScore :=
  minimaxVal O (O.next p m) (depth - 1) .negInf .posInf
    (decide (O.turn (O.next p m) = Color.w))

theorem scoreLoop_cons {Pos Mv : Type} (O : Oracle Pos Mv)
    (settings : DifficultySettings) (noiseAt : Nat → ℚ) (m : Mv) (ms : List Mv)
    (i : Nat) (st : ChessState Pos) (bestMove : Option Mv) (bestScore : XScore) :
    scoreLoop O settings noiseAt (m :: ms) i st bestMove bestScore =
      (if (O.turn st.pos = Color.w ∧ bestScore <
            XScore.addQ (rootScore O st.pos settings.depth m)
              ((noiseAt i * 2 - 1) * settings.evaluationNoise * 10)) ∨
          (O.turn st.pos = Color.b ∧
            XScore.addQ (rootScore O st.pos settings.depth m)
              ((noiseAt i * 2 - 1) * settings.evaluationNoise * 10) < bestScore) then
        scoreLoop O settings noiseAt ms (i + 1) st (some m)
          (XScore.addQ (rootScore O st.pos settings.depth m)
            ((noiseAt i * 2 - 1) * settings.evaluationNoise * 10))
      else
        scoreLoop O settings noiseAt ms (i + 1) st bestMove bestScore) := by
  simp only [scoreLoop, minimax_eq_minimaxVal, chessUndo_chessMove, chessMove_pos,
    rootScore]

/-! ## Finiteness of search values

chess.js guarantees that a position that is not game over has at least one
legal move; under that well-formedness assumption every search value is a
finite score (the `-Infinity`/`+Infinity` seeds are always overwritten). -/

theorem minimaxNoPrune_fin {Pos Mv : Type} (O : Oracle Pos Mv)
    (hwf : ∀ q, O.isGameOver q = false → O.moves q ≠ []) :
    ∀ (d : Nat) (p : Pos) (f : Bool), ∃ v : ℚ, minimaxNoPrune O d p f = .fin v := by
  intro d
  induction d with
  | zero => intro p f; exact ⟨evaluatePosition O p, rfl⟩
  | succ d ih =>
    intro p f
    by_cases hgo : O.isGameOver p
    · exact ⟨evaluatePosition O p, by simp [minimaxNoPrune, hgo]⟩
    · have hne : O.moves p ≠ [] := hwf p (by simpa using hgo)
      obtain ⟨m0, ms0, hms⟩ := List.exists_cons_of_ne_nil hne
      have hm0 : m0 ∈ O.moves p := by rw [hms]; exact List.mem_cons_self m0 ms0
      cases f with
      | true =>
        have hval : minimaxNoPrune O (d + 1) p true =
            (O.moves p).foldl
              (fun acc m => max acc (minimaxNoPrune O d (O.next p m) false))
              .negInf := by
          simp [minimaxNoPrune, hgo]
        obtain ⟨v0, hv0⟩ := ih (O.next p m0) false
        have hle := foldl_max_elem_le
          (fun m => minimaxNoPrune O d (O.next p m) false) (O.moves p) hm0
          XScore.negInf
        rcases foldl_max_attained
            (fun m => minimaxNoPrune O d (O.next p m) false) (O.moves p)
            XScore.negInf with hatt | ⟨m, _, hatt⟩
        · exfalso
          rw [hatt, hv0] at hle
          exact absurd ((XScore.le_negInf_iff _).mp hle) (by simp)
        · obtain ⟨v, hv⟩ := ih (O.next p m) false
          exact ⟨v, by rw [hval, hatt, hv]⟩
      | false =>
        have hval : minimaxNoPrune O (d + 1) p false =
            (O.moves p).foldl
              (fun acc m => min acc (minimaxNoPrune O d (O.next p m) true))
              .posInf := by
          simp [minimaxNoPrune, hgo]
        obtain ⟨v0, hv0⟩ := ih (O.next p m0) true
        have hle := foldl_min_le_elem
          (fun m => minimaxNoPrune O d (O.next p m) true) (O.moves p) hm0
          XScore.posInf
        rcases foldl_min_attained
            (fun m => minimaxNoPrune O d (O.next p m) true) (O.moves p)
            XScore.posInf with hatt | ⟨m, _, hatt⟩
        · exfalso
          rw [hatt, hv0] at hle
          exact absurd ((XScore.posInf_le_iff _).mp hle) (by simp)
        · obtain ⟨v, hv⟩ := ih (O.next p m) true
          exact ⟨v, by rw [hval, hatt, hv]⟩

theorem rootScore_fin {Pos Mv : Type} (O : Oracle Pos Mv)
    (hwf : ∀ q, O.isGameOver q = false → O.moves q ≠ []) (p : Pos) (depth : Nat)
    (m : Mv) : ∃ v : ℚ, rootScore O p depth m = .fin v := by
  rw [rootScore, minimaxVal_open_eq]
  exact minimaxNoPrune_fin O hwf _ _ _

/-! ## The scoring loop selects an argmax (white) / argmin (black)

With zero evaluation noise the loop's strict-improvement rule keeps a running
best whose score dominates every processed move. -/

theorem scoreLoop_argmax_w {Pos Mv : Type} (O : Oracle Pos Mv)
    (s : DifficultySettings) (noiseAt : Nat → ℚ) (st : ChessState Pos)
    (hw : O.turn st.pos = Color.w) (hnoise : s.evaluationNoise = 0) :
    ∀ (ms : List Mv) (i : Nat) (bm : Option Mv) (bs : XScore),
      ((bm = none ∧ bs = XScore.negInf) ∨
        (∃ mb, bm = some mb ∧ bs = rootScore O st.pos s.depth mb)) →
      ((scoreLoop O s noiseAt ms i st bm bs).1 = bm ∧
         ∀ m ∈ ms, rootScore O st.pos s.depth m ≤ bs) ∨
      (∃ mb ∈ ms, (scoreLoop O s noiseAt ms i st bm bs).1 = some mb ∧
         bs ≤ rootScore O st.pos s.depth mb ∧
         ∀ m ∈ ms, rootScore O st.pos s.depth m ≤ rootScore O st.pos s.depth mb) := by
  intro ms
  induction ms with
  | nil =>
    intro i bm bs _
    exact Or.inl ⟨rfl, by simp⟩
  | cons m rest ih =>
    intro i bm bs hinv
    rw [scoreLoop_cons]
    have hnz : (noiseAt i * 2 - 1) * s.evaluationNoise * 10 = 0 := by
      rw [hnoise]; ring
    rw [hnz, XScore.addQ_zero]
    have hbw : ¬ (O.turn st.pos = Color.b) := by rw [hw]; simp
    by_cases hlt : bs < rootScore O st.pos s.depth m
    · rw [if_pos (Or.inl ⟨hw, hlt⟩)]
      rcases ih (i + 1) (some m) (rootScore O st.pos s.depth m)
          (Or.inr ⟨m, rfl, rfl⟩) with ⟨hrm, hall⟩ | ⟨mb, hmem, hres, hle, hall⟩
      · refine Or.inr ⟨m, List.mem_cons_self m rest, hrm, le_of_lt hlt, ?_⟩
        intro m' hm'
        rcases List.mem_cons.mp hm' with h | h
        · subst h; exact le_refl _
        · exact le_trans (hall m' h) (le_refl _)
      · refine Or.inr ⟨mb, List.mem_cons_of_mem m hmem, hres,
          le_trans (le_of_lt hlt) hle, ?_⟩
        intro m' hm'
        rcases List.mem_cons.mp hm' with h | h
        · subst h; exact hle
        · exact hall m' h
    · have hcond : ¬ ((O.turn st.pos = Color.w ∧ bs < rootScore O st.pos s.depth m) ∨
          (O.turn st.pos = Color.b ∧ rootScore O st.pos s.depth m < bs)) := by
        rintro (⟨_, h⟩ | ⟨h, _⟩)
        · exact hlt h
        · exact hbw h
      rw [if_neg hcond]
      rcases ih (i + 1) bm bs hinv with ⟨hrm, hall⟩ | ⟨mb, hmem, hres, hle, hall⟩
      · refine Or.inl ⟨hrm, ?_⟩
        intro m' hm'
        rcases List.mem_cons.mp hm' with h | h
        · subst h; exact le_of_not_lt hlt
        · exact hall m' h
      · refine Or.inr ⟨mb, List.mem_cons_of_mem m hmem, hres, hle, ?_⟩
        intro m' hm'
        rcases List.mem_cons.mp hm' with h | h
        · subst h; exact le_trans (le_of_not_lt hlt) hle
        · exact hall m' h

theorem scoreLoop_argmin_b {Pos Mv : Type} (O : Oracle Pos Mv)
    (s : DifficultySettings) (noiseAt : Nat → ℚ) (st : ChessState Pos)
    (hb : O.turn st.pos = Color.b) (hnoise : s.evaluationNoise = 0) :
    ∀ (ms : List Mv) (i : Nat) (bm : Option Mv) (bs : XScore),
      ((bm = none ∧ bs = XScore.posInf) ∨
        (∃ mb, bm = some mb ∧ bs = rootScore O st.pos s.depth mb)) →
      ((scoreLoop O s noiseAt ms i st bm bs).1 = bm ∧
         ∀ m ∈ ms, bs ≤ rootScore O st.pos s.depth m) ∨
      (∃ mb ∈ ms, (scoreLoop O s noiseAt ms i st bm bs).1 = some mb ∧
         rootScore O st.pos s.depth mb ≤ bs ∧
         ∀ m ∈ ms, rootScore O st.pos s.depth mb ≤ rootScore O st.pos s.depth m) := by
  intro ms
  induction ms with
  | nil =>
    intro i bm bs _
    exact Or.inl ⟨rfl, by simp⟩
  | cons m rest ih =>
    intro i bm bs hinv
    rw [scoreLoop_cons]
    have hnz : (noiseAt i * 2 - 1) * s.evaluationNoise * 10 = 0 := by
      rw [hnoise]; ring
    rw [hnz, XScore.addQ_zero]
    have hwb : ¬ (O.turn st.pos = Color.w) := by rw [hb]; simp
    by_cases hlt : rootScore O st.pos s.depth m < bs
    · rw [if_pos (Or.inr ⟨hb, hlt⟩)]
      rcases ih (i + 1) (some m) (rootScore O st.pos s.depth m)
          (Or.inr ⟨m, rfl, rfl⟩) with ⟨hrm, hall⟩ | ⟨mb, hmem, hres, hle, hall⟩
      · refine Or.inr ⟨m, List.mem_cons_self m rest, hrm, le_of_lt hlt, ?_⟩
        intro m' hm'
        rcases List.mem_cons.mp hm' with h | h
        · subst h; exact le_refl _
        · exact hall m' h
      · refine Or.inr ⟨mb, List.mem_cons_of_mem m hmem, hres,
          le_trans hle (le_of_lt hlt), ?_⟩
        intro m' hm'
        rcases List.mem_cons.mp hm' with h | h
        · subst h; exact hle
        · exact hall m' h
    · have hcond : ¬ ((O.turn st.pos = Color.w ∧ bs < rootScore O st.pos s.depth m) ∨
          (O.turn st.pos = Color.b ∧ rootScore O st.pos s.depth m < bs)) := by
        rintro (⟨h, _⟩ | ⟨_, h⟩)
        · exact hwb h
        · exact hlt h
      rw [if_neg hcond]
      rcases ih (i + 1) bm bs hinv with ⟨hrm, hall⟩ | ⟨mb, hmem, hres, hle, hall⟩
      · refine Or.inl ⟨hrm, ?_⟩
        intro m' hm'
        rcases List.mem_cons.mp hm' with h | h
        · subst h; exact le_of_not_lt hlt
        · exact hall m' h
      · refine Or.inr ⟨mb, List.mem_cons_of_mem m hmem, hres, hle, ?_⟩
        intro m' hm'
        rcases List.mem_cons.mp hm' with h | h
        · subst h; exact le_trans hle (le_of_not_lt hlt)
        · exact hall m' h

/-! ## Transport relay: move-format validation and retry
(`lambda/geminiHandler.mjs`)

`api` abstracts `callGeminiAPI`: it maps a prompt to the upstream model's raw
reply text. -/

/-- `isValidSquare` (geminiHandler.mjs lines 152-156): exactly two characters,
a file in `abcdefgh` and a rank in `12345678` (lower case only). -/
def isValidSquare (square : List Char) : Bool :=
  square.length == 2 &&
    "abcdefgh".toList.contains (square.headD ' ') &&
    "12345678".toList.contains ((square.drop 1).headD ' ')

/-- `validateMoveFormat` (geminiHandler.mjs lines 138-175): the whole reply
must be 4 or 5 characters; squares at positions 0-1 and 2-3, optional
promotion piece in `qrbnQRBN` at position 4. -/
def validateMoveFormat (moveText : List Char) : Bool :=
  if moveText.length < 4 ∨ 5 < moveText.length then false
  else
    let fromSq := moveText.take 2
    let toSq := (moveText.drop 2).take 2
    let promotion := (moveText.drop 4).take 1
    if !(isValidSquare fromSq && isValidSquare toSq) then false
    else
      match promotion with
      | [] => true
      | c :: _ => "qrbnQRBN".toList.contains c

/-- The augmented retry prompt of geminiHandler.mjs lines 251-259: the
original prompt followed by feedback naming the invalid token and restating
the required format. -/
def mkRetryPrompt (prompt moveText : List Char) : List Char :=
  '\n' :: prompt ++ "\n\nCRITICAL: Your previous move \"".toList ++ moveText ++
    "\" was invalid. Please provide a move in the correct format.\nThe format should be exactly like \"e2e4\" (from square to square).\nFor pawn promotion, add the promotion piece at the end, like \"e7e8q\" for queen promotion.\n\nRespond with ONLY a valid move in the format \"e2e4\" or \"e7e8q\" for promotion.\n".toList

/-- The `requestType === 'move'` branch of the Lambda `handler`
(geminiHandler.mjs lines 237-295): call the model, validate the trimmed
reply's format; when invalid, retry exactly once with the augmented prompt;
when the retry is also invalid, answer HTTP 400 (`Except.error`). -/
def handlerMove (api : List Char → List Char) (prompt : List Char) :
    Except (List Char) (List Char) :=
  let response := api prompt
  let moveText := jsTrim response
  if validateMoveFormat moveText then .ok moveText
  else
    let retryPrompt := mkRetryPrompt prompt moveText
    let retryResponse := api retryPrompt
    let retryMoveText := jsTrim retryResponse
    if validateMoveFormat retryMoveText then .ok retryMoveText
    else
      ("Invalid move format: ".toList ++ moveText ++
        ". Retry also invalid: ".toList ++ retryMoveText) |> .error

def exceptIsOk {α β : Type} : Except α β → Bool
  | .ok _ => true
  | .error _ => false

/-- Modelled from the spec (§4.5), absent from the code: the retry protocol
with "up to `MAX_RETRIES = 3` attempts total", each retry resending an
augmented instruction that states the previous invalid token; exhaustion
raises `RetryExhaustedError`. -/
def handlerMoveSpec (api : List Char → List Char) (prompt : List Char) :
    Except (List Char) (List Char) :=
  let t1 := jsTrim (api prompt)
  if validateMoveFormat t1 then .ok t1
  else
    let prompt2 := mkRetryPrompt prompt t1
    let t2 := jsTrim (api prompt2)
    if validateMoveFormat t2 then .ok t2
    else
      let prompt3 := mkRetryPrompt prompt2 t2
      let t3 := jsTrim (api prompt3)
      if validateMoveFormat t3 then .ok t3
      else "RetryExhaustedError".toList |> .error

/-- Modelled from the spec (§4.5), absent from the code: file characters of
the claimed token grammar, case-insensitive. -/
def fileCharSpec (c : Char) : Bool := "abcdefgh".toList.contains c.toLower

/-- Modelled from the spec (§4.5), absent from the code: rank characters. -/
def rankCharSpec (c : Char) : Bool := "12345678".toList.contains c

/-- Modelled from the spec (§4.5), absent from the code: promotion characters
of the claimed grammar, case-insensitive. -/
def promoCharSpec (c : Char) : Bool := "qrbn".toList.contains c.toLower

/-- Modelled from the spec (§4.5), absent from the code: a token matching
`[a-h][1-8][a-h][1-8][qrbn]?` starting at the head of the text. -/
def tokenAt : List Char → Option (List Char)
  | c1 :: c2 :: c3 :: c4 :: rest =>
    if fileCharSpec c1 && rankCharSpec c2 && fileCharSpec c3 && rankCharSpec c4 then
      match rest with
      | c5 :: _ =>
        if promoCharSpec c5 then some [c1, c2, c3, c4, c5] else some [c1, c2, c3, c4]
      | [] => some [c1, c2, c3, c4]
    else none
  | _ => none

/-- Modelled from the spec (§4.5), absent from the code: the first substring
of the text matching the token grammar. -/
def firstToken : List Char → Option (List Char)
  | [] => none
  | c :: rest =>
    match tokenAt (c :: rest) with
    | some t => some t
    | none => firstToken rest

/-- Modelled from the spec (§4.5), absent from the code: the suffix of the
text after its first "Move:" label, when one exists. -/
def afterLabel : List Char → Option (List Char)
  | [] => none
  | c :: rest =>
    if (c :: rest).take 5 = "Move:".toList then some ((c :: rest).drop 5)
    else afterLabel rest

/-- Modelled from the spec (§4.5), absent from the code: the claimed
extraction rule — prefer a token after a labeled "Move:" prefix when present,
else the first matching substring anywhere in the text. -/
def extractMoveSpec (text : List Char) : Option (List Char) :=
  match afterLabel text with
  | some suffix =>
    match firstToken suffix with
    | some t => some t
    | none => firstToken text
  | none => firstToken text

/-- The whole-string token grammar the relay actually enforces: exactly
`[a-h][1-8][a-h][1-8]` with an optional fifth character in `qrbnQRBN` —
lower-case squares only, no label preference, no substring scanning. -/
def exactMoveToken : List Char → Bool
  | [c1, c2, c3, c4] =>
    "abcdefgh".toList.contains c1 && "12345678".toList.contains c2 &&
    "abcdefgh".toList.contains c3 && "12345678".toList.contains c4
  | [c1, c2, c3, c4, c5] =>
    "abcdefgh".toList.contains c1 && "12345678".toList.contains c2 &&
    "abcdefgh".toList.contains c3 && "12345678".toList.contains c4 &&
    "qrbnQRBN".toList.contains c5
  | _ => false

theorem validateMoveFormat_eq_exact (cs : List Char) :
    validateMoveFormat cs = exactMoveToken cs := by
  match cs with
  | [] => rfl
  | [_] => rfl
  | [_, _] => rfl
  | [_, _, _] => rfl
  | [c1, c2, c3, c4] =>
    simp only [validateMoveFormat, exactMoveToken, isValidSquare]
    norm_num
    simp [Bool.and_assoc]
  | [c1, c2, c3, c4, c5] =>
    simp only [validateMoveFormat, exactMoveToken, isValidSquare]
    norm_num
    simp only [Bool.and_assoc]
  | c1 :: c2 :: c3 :: c4 :: c5 :: c6 :: rest =>
    simp [validateMoveFormat, exactMoveToken]

/-! ## The spec's material table (king 0) versus the code's (king 20000)

The spec's §4.1 lists the king's material value as 0 where the source uses
20000.  Because every chess position holds exactly one king per side the two
20000 contributions cancel, so the evaluator still returns exactly the spec's
sum; the lemmas below make that cancellation precise. -/

/-- Modelled from the spec (§4.1): "a material value per piece kind (pawn 100,
knight 320, bishop 330, rook 500, queen 900, king 0)". -/
def specPieceValues : PieceType → ℚ
  | .p => 100
  | .n => 320
  | .b => 330
  | .r => 500
  | .q => 900
  | .k => 0

/-- Modelled from the spec (§4.1): the Static Evaluator — mate sentinel signed
for the side not to move, 0 for draws, else the material + piece-square sum
with the spec's table. -/
def specEvaluatePosition {Pos Mv : Type} (O : Oracle Pos Mv) (p : Pos) : ℚ :=
  if O.isCheckmate p then (if O.turn p = .w then -10000 else 10000)
  else if O.isDraw p then 0
  else boardScore specPieceValues (O.board p)

def isKingOf (c : Color) : Option Piece → Bool
  | some piece => piece.type == PieceType.k && piece.color == c
  | none => false

/-- The number of kings of colour `c` on the 8×8 grid the evaluator scans. -/
def countKings (board : List (List (Option Piece))) (c : Color) : ℚ :=
  ((List.range 8).map (fun i =>
    ((List.range 8).map (fun j =>
      if isKingOf c ((board.getD i []).getD j none) then (1 : ℚ) else 0)).sum)).sum

theorem list_sum_map_sub {α : Type} (l : List α) (f g : α → ℚ) :
    (l.map f).sum - (l.map g).sum = (l.map (fun i => f i - g i)).sum := by
  induction l with
  | nil => simp
  | cons x xs ih =>
    simp only [List.map_cons, List.sum_cons]
    rw [← ih]
    ring

theorem cellScore_sub (board : List (List (Option Piece))) (i j : Nat) :
    cellScore pieceValues board i j - cellScore specPieceValues board i j =
      20000 * ((if isKingOf Color.w ((board.getD i []).getD j none) then (1 : ℚ) else 0) -
        (if isKingOf Color.b ((board.getD i []).getD j none) then (1 : ℚ) else 0)) := by
  unfold cellScore
  rcases hcell : (board.getD i []).getD j none with _ | ⟨t, c⟩
  · simp [isKingOf]
  · cases t <;> cases c <;> simp [isKingOf, pieceValues, specPieceValues] <;>
      try ring

theorem boardScore_sub (board : List (List (Option Piece))) :
    boardScore pieceValues board - boardScore specPieceValues board =
      20000 * (countKings board Color.w - countKings board Color.b) := by
  unfold boardScore countKings
  rw [list_sum_map_sub, list_sum_map_sub]
  rw [mul_comm]
  rw [← List.sum_map_mul_right]
  congr 1
  refine List.map_congr_left ?_
  intro i _
  rw [list_sum_map_sub, list_sum_map_sub]
  rw [← List.sum_map_mul_right]
  refine congrArg List.sum (List.map_congr_left ?_)
  intro j _
  rw [cellScore_sub]
  ring

/-- The evaluator agrees with the spec's king-0 sum whenever white and black
have equally many kings on the board (every chess position has one each). -/
theorem evaluatePosition_eq_spec {Pos Mv : Type} (O : Oracle Pos Mv) (p : Pos)
    (hk : countKings (O.board p) Color.w = countKings (O.board p) Color.b) :
    evaluatePosition O p = specEvaluatePosition O p := by
  unfold evaluatePosition specEvaluatePosition
  cases hcm : O.isCheckmate p with
  | true => simp [hcm]
  | false =>
    cases hdr : O.isDraw p with
    | true => simp [hcm, hdr]
    | false =>
      simp only [hcm, hdr, Bool.false_eq_true, if_false]
      have hdiff := boardScore_sub (O.board p)
      rw [hk] at hdiff
      simp at hdiff
      linarith

/-! ## Concrete oracle instances

Small, fully-computable instances of the Rules Oracle interface, each
consistent with a real chess.js behaviour, used to instantiate the theorems
below on closed inputs. -/

/-- A checkmated position: no legal moves, game over, white to move (mated).
Matches e.g. the fool's-mate FEN
`rnb1kbnr/pppp1ppp/8/4p3/6P1/5P2/PPPPP2P/RNBQKBNR w KQkq - 1 3`. -/
def mateOracle : Oracle Unit MoveRec where
  moves := fun _ => []
  next := fun _ _ => ()
  isGameOver := fun _ => true
  isCheckmate := fun _ => true
  isDraw := fun _ => false
  turn := fun _ => Color.w
  board := fun _ => []
  toRec := id

/-- A drawn position that still has exactly one legal move: chess.js reports
`8/8/8/8/8/8/2k5/K7 w - - 0 1` (bare kings) as a draw by insufficient
material, i.e. `isGameOver()` is true, although white can still play the one
legal move a1a2. -/
def drawOracle : Oracle Unit MoveRec where
  moves := fun _ => [⟨"a1".toList, "a2".toList, none⟩]
  next := fun _ _ => ()
  isGameOver := fun _ => true
  isCheckmate := fun _ => false
  isDraw := fun _ => true
  turn := fun _ => Color.w
  board := fun _ => []
  toRec := id

/-- A two-move game: position 0 (white to move, in progress) has root moves 1
and 2, each leading to a terminated position. -/
def twoMoveOracle : Oracle Nat Nat where
  moves := fun p => if p = 0 then [1, 2] else []
  next := fun _ m => m
  isGameOver := fun p => decide (p ≠ 0)
  isCheckmate := fun _ => false
  isDraw := fun _ => false
  turn := fun _ => Color.w
  board := fun p => if p = 1 then [[some ⟨PieceType.p, Color.w⟩]] else []
  toRec := fun _ => ⟨"a2".toList, "a3".toList, none⟩

/-- A forced-move game: position 0 (in progress) has the single root move 5;
all other positions are terminal. -/
def forcedOracle : Oracle Nat Nat where
  moves := fun p => if p = 0 then [5] else []
  next := fun _ m => m
  isGameOver := fun p => decide (p ≠ 0)
  isCheckmate := fun _ => false
  isDraw := fun _ => false
  turn := fun _ => Color.w
  board := fun _ => []
  toRec := fun _ => ⟨"a1".toList, "a2".toList, none⟩

/-- An in-progress position with one king of each colour on the board. -/
def evalOracle : Oracle Unit MoveRec where
  moves := fun _ => []
  next := fun _ _ => ()
  isGameOver := fun _ => false
  isCheckmate := fun _ => false
  isDraw := fun _ => false
  turn := fun _ => Color.w
  board := fun _ => [[some ⟨PieceType.k, Color.w⟩, some ⟨PieceType.k, Color.b⟩]]
  toRec := id

theorem twoMoveOracle_wf :
    ∀ q, twoMoveOracle.isGameOver q = false → twoMoveOracle.moves q ≠ [] := by
  intro q hq
  have h0 : q = 0 := by simpa [twoMoveOracle] using hq
  subst h0
  simp [twoMoveOracle]

theorem forcedOracle_wf :
    ∀ q, forcedOracle.isGameOver q = false → forcedOracle.moves q ≠ [] := by
  intro q hq
  have h0 : q = 0 := by simpa [forcedOracle] using hq
  subst h0
  simp [forcedOracle]

/-! ## Claim theorems -/

/-- C4: for every oracle, state, depth and maximizing flag, the alpha-beta
search of `minimax` called with the open window `(-Infinity, +Infinity)`
returns exactly the score of plain minimax over the same move enumeration and
the same static evaluator — the `beta ≤ alpha` early break never changes the
value returned at the root. -/
theorem minimax_openWindow_eq_noPrune {Pos Mv : Type} (O : Oracle Pos Mv)
    (st : ChessState Pos) (depth : Nat) (isMaximizing : Bool) :
    (minimax O st depth .negInf .posInf isMaximizing).1 =
      minimaxNoPrune O depth st.pos isMaximizing :=
  minimax_open_eq O st depth isMaximizing

/-- C9: for every position, depth and window, the search hands back the
`Chess` instance exactly as it received it — every move applied inside the
maximizing and minimizing loops is undone before the next sibling and before
any beta-cutoff break. -/
theorem minimax_restores_state {Pos Mv : Type} (O : Oracle Pos Mv)
    (st : ChessState Pos) (depth : Nat) (alpha beta : XScore) (f : Bool) :
    (minimax O st depth alpha beta f).2 = st := by
  rw [minimax_eq_minimaxVal]

/-- C10: on the local path `findBestMove` returns `none` for every position
the oracle reports as game over for any reason — including draws in which
legal moves still exist — because the `isGameOver` gate precedes the move
enumeration. -/
theorem findBestMove_gameOver_none {Pos Mv : Type} (O : Oracle Pos Mv)
    (resp : Option GeminiResponse) (p : Pos) (difficulty : AIDifficulty)
    (r1 r2 : ℚ) (noiseAt : Nat → ℚ) (hgo : O.isGameOver p = true) :
    findBestMove O false resp p difficulty r1 r2 noiseAt = none := by
  simp [findBestMove, hgo]

/-- C10 witness: the drawn bare-kings position still has a legal move, yet
the local path returns `none`. -/
theorem findBestMove_gameOver_none_witness :
    findBestMove drawOracle false none () .master 0 0 (fun _ => 0) = none ∧
    drawOracle.moves () ≠ [] :=
  ⟨findBestMove_gameOver_none drawOracle none () .master 0 0 (fun _ => 0) rfl,
    by simp [drawOracle]⟩

/-- C6: whenever the remote adapter fails in any way (`getBestMove` throws —
transport error, relay-reported failure, or unparseable content),
`findBestMove` with the remote path enabled returns exactly what the local
path returns; no adapter failure reaches the caller. -/
theorem findBestMove_remote_failure_falls_back {Pos Mv : Type}
    (O : Oracle Pos Mv) (resp : Option GeminiResponse) (p : Pos)
    (difficulty : AIDifficulty) (r1 r2 : ℚ) (noiseAt : Nat → ℚ) (e : List Char)
    (herr : getBestMove resp = .error e) :
    findBestMove O true resp p difficulty r1 r2 noiseAt =
      findBestMove O false resp p difficulty r1 r2 noiseAt := by
  simp [findBestMove, herr]

/-- C6 witness: a transport failure (`resp = none`) at a live position falls
back to the local search result. -/
theorem findBestMove_remote_failure_falls_back_witness :
    findBestMove twoMoveOracle true none 0 .beginner 0 0 (fun _ => 0) =
      findBestMove twoMoveOracle false none 0 .beginner 0 0 (fun _ => 0) :=
  findBestMove_remote_failure_falls_back twoMoveOracle none 0 .beginner 0 0
    (fun _ => 0) "Gemini API request failed".toList rfl

/-- C3: for every position whose board carries equally many white and black
kings (every chess position has exactly one of each), `evaluatePosition`
returns exactly the spec's value: the ±10000 mate sentinel signed for the
side not to move, 0 on draws, and otherwise the material sum with the spec's
table (pawn 100, knight 320, bishop 330, rook 500, queen 900, king 0) plus
the piece-square bonus, mirrored vertically for black, added for white and
subtracted for black. -/
theorem evaluatePosition_matches_spec {Pos Mv : Type} (O : Oracle Pos Mv)
    (p : Pos)
    (hk : countKings (O.board p) Color.w = countKings (O.board p) Color.b) :
    evaluatePosition O p = specEvaluatePosition O p :=
  evaluatePosition_eq_spec O p hk

/-- C3 witness: a board with one king of each colour. -/
theorem evaluatePosition_matches_spec_witness :
    evaluatePosition evalOracle () = specEvaluatePosition evalOracle () :=
  evaluatePosition_matches_spec evalOracle ()
    (by norm_num [countKings, evalOracle, isKingOf, List.range_succ]
        simp)

/-- C1 (counterexample): the Remote Decision Adapter performs no legality
validation.  At a checkmated position — whose legal-move set is empty — with
the relay answering "e2e4" successfully, `findBestMove` returns the parsed
move to the caller although it is not legal for the position. -/
theorem findBestMove_remote_returns_illegal_move :
    findBestMove mateOracle true (some ⟨"e2e4".toList, true⟩) () .master 0 0
        (fun _ => 0) =
      some ⟨"e2".toList, "e4".toList, none⟩ ∧
    ¬ ∃ m ∈ mateOracle.moves (),
        mateOracle.toRec m = MoveRec.mk "e2".toList "e4".toList none := by
  constructor
  · rfl
  · simp [mateOracle]

/-- C1 (amended): for every oracle, position and difficulty, whenever the
relay reports success and the trimmed content has at least 4 characters, the
remote path of `findBestMove` returns the positional parse of the content —
characters 0-1, 2-3 and optionally 4 — independently of the oracle's
legal-move set. -/
theorem findBestMove_remote_parses_positionally {Pos Mv : Type}
    (O : Oracle Pos Mv) (p : Pos) (difficulty : AIDifficulty) (r1 r2 : ℚ)
    (noiseAt : Nat → ℚ) (resp : GeminiResponse) (hs : resp.success = true)
    (hlen : 4 ≤ (jsTrim resp.content).length) :
    findBestMove O true (some resp) p difficulty r1 r2 noiseAt =
      some ⟨(jsTrim resp.content).take 2, ((jsTrim resp.content).drop 2).take 2,
        if 4 < (jsTrim resp.content).length then
          some (((jsTrim resp.content).drop 4).take 1)
        else none⟩ := by
  simp [findBestMove, getBestMove, hs, hlen]

/-- C1 witness for the amended theorem: a successful "e7e8q" reply. -/
theorem findBestMove_remote_parses_positionally_witness :
    findBestMove mateOracle true (some ⟨"e7e8q".toList, true⟩) () .master 0 0
        (fun _ => 0) =
      some ⟨(jsTrim "e7e8q".toList).take 2, ((jsTrim "e7e8q".toList).drop 2).take 2,
        if 4 < (jsTrim "e7e8q".toList).length then
          some (((jsTrim "e7e8q".toList).drop 4).take 1)
        else none⟩ :=
  findBestMove_remote_parses_positionally mateOracle () .master 0 0 (fun _ => 0)
    ⟨"e7e8q".toList, true⟩ rfl (by decide)

/-- C7 (counterexample): the handler makes 2 attempts, not `MAX_RETRIES = 3`.
With a model that answers an invalid token on the first prompt and on the
first retry prompt, but a valid move on any other prompt, the handler raises
the failure after the second attempt, while the spec's three-attempt protocol
would return the valid third move. -/
theorem handlerMove_not_three_attempts :
    exceptIsOk (handlerMove
      (fun s => if s = "P".toList then "zz".toList
        else if s = mkRetryPrompt "P".toList "zz".toList then "zz".toList
        else "e2e4".toList) "P".toList) = false ∧
    handlerMoveSpec
      (fun s => if s = "P".toList then "zz".toList
        else if s = mkRetryPrompt "P".toList "zz".toList then "zz".toList
        else "e2e4".toList) "P".toList = .ok "e2e4".toList := by
  constructor
  · decide
  · rfl

/-- C7 (amended): for every model behaviour and prompt, when the first reply's
trimmed text fails format validation and so does the reply to the single
augmented retry prompt — which embeds the previous invalid token verbatim —
the handler returns the failure after these 2 attempts in total. -/
theorem handlerMove_two_attempts (api : List Char → List Char)
    (prompt : List Char)
    (h1 : validateMoveFormat (jsTrim (api prompt)) = false)
    (h2 : validateMoveFormat
      (jsTrim (api (mkRetryPrompt prompt (jsTrim (api prompt))))) = false) :
    handlerMove api prompt =
      .error ("Invalid move format: ".toList ++ jsTrim (api prompt) ++
        ". Retry also invalid: ".toList ++
        jsTrim (api (mkRetryPrompt prompt (jsTrim (api prompt))))) ∧
    List.IsInfix (jsTrim (api prompt))
      (mkRetryPrompt prompt (jsTrim (api prompt))) := by
  constructor
  · simp [handlerMove, h1, h2]
  · refine ⟨'\n' :: prompt ++ "\n\nCRITICAL: Your previous move \"".toList,
      "\" was invalid. Please provide a move in the correct format.\nThe format should be exactly like \"e2e4\" (from square to square).\nFor pawn promotion, add the promotion piece at the end, like \"e7e8q\" for queen promotion.\n\nRespond with ONLY a valid move in the format \"e2e4\" or \"e7e8q\" for promotion.\n".toList,
      ?_⟩
    simp [mkRetryPrompt]

/-- C7 witness for the amended theorem: a model that always replies "bad". -/
theorem handlerMove_two_attempts_witness :
    handlerMove (fun _ => "bad".toList) "P".toList =
      .error ("Invalid move format: ".toList ++ jsTrim ((fun _ => "bad".toList) "P".toList) ++
        ". Retry also invalid: ".toList ++
        jsTrim ((fun _ => "bad".toList)
          (mkRetryPrompt "P".toList (jsTrim ((fun _ => "bad".toList) "P".toList))))) ∧
    List.IsInfix (jsTrim ((fun _ => "bad".toList) "P".toList))
      (mkRetryPrompt "P".toList (jsTrim ((fun _ => "bad".toList) "P".toList))) :=
  handlerMove_two_attempts (fun _ => "bad".toList) "P".toList (by decide) (by decide)

/-- C8 (counterexample): the reply text "Move: e2e4" contains an extractable
token under the spec's labelled-extraction rule, yet the relay rejects the
whole reply (it validates the entire trimmed text, never scanning for a
substring), and the client adapter, fed such a text as successful content,
splits it positionally into the nonsense move `Mo`→`ve` promoting to ":". -/
theorem adapter_no_token_extraction :
    extractMoveSpec "Move: e2e4".toList = some "e2e4".toList ∧
    exceptIsOk (handlerMove (fun _ => "Move: e2e4".toList) "P".toList) = false ∧
    getBestMove (some ⟨"Move: e2e4".toList, true⟩) =
      .ok ⟨"Mo".toList, "ve".toList, some ":".toList⟩ := by
  refine ⟨by decide, by decide, by rfl⟩

/-- C8 (amended): the relay-side validation accepts exactly the whole-string
token grammar `[a-h][1-8][a-h][1-8]` with an optional promotion character in
`qrbnQRBN` — lower-case squares only, no "Move:" label preference, no
substring scanning; everything else is rejected as a failure. -/
theorem validateMoveFormat_whole_token_only :
    ∀ cs : List Char, validateMoveFormat cs = exactMoveToken cs :=
  validateMoveFormat_eq_exact

theorem findBestMove_local {Pos Mv : Type} (O : Oracle Pos Mv)
    (resp : Option GeminiResponse) (p : Pos) (difficulty : AIDifficulty)
    (r1 r2 : ℚ) (noiseAt : Nat → ℚ) (hgo : O.isGameOver p = false) :
    findBestMove O false resp p difficulty r1 r2 noiseAt =
      (if (difficultySettings difficulty).makeRandomMoves ∧
          r1 < (difficultySettings difficulty).randomMoveChance then
        match (O.moves p)[(⌊r2 * ((O.moves p).length : ℚ)⌋).toNat]? with
        | some randomMove => some (O.toRec randomMove)
        | none => none
      else
        ((scoreLoop O (difficultySettings difficulty) noiseAt (O.moves p) 0
          ⟨p, []⟩ none
          (if O.turn p = Color.w then XScore.negInf else XScore.posInf)).1).map
          O.toRec) := by
  simp [findBestMove, hgo]

/-- C5 (counterexample): a position with exactly one legal move that chess.js
nevertheless reports as game over (bare kings, draw by insufficient material,
white's single move a1a2): `findBestMove` returns `none`, not the forced
move. -/
theorem findBestMove_one_move_draw_returns_none :
    drawOracle.moves () = [MoveRec.mk "a1".toList "a2".toList none] ∧
    findBestMove drawOracle false none () .master 0 0 (fun _ => 0) = none :=
  ⟨rfl, rfl⟩

/-- C5 (amended): for every position that is not game over and has exactly
one legal move, `findBestMove` with the remote path disabled returns that
move at every difficulty level and for every outcome of the random draws —
both the random-move branch (`⌊r2·1⌋ = 0` picks the unique move) and the
scoring branch (a finite score strictly beats the `∓Infinity` seed) yield
it. -/
theorem findBestMove_forced_move {Pos Mv : Type} (O : Oracle Pos Mv)
    (p : Pos) (m : Mv)
    (hwf : ∀ q, O.isGameOver q = false → O.moves q ≠ [])
    (hmv : O.moves p = [m]) (hgo : O.isGameOver p = false)
    (difficulty : AIDifficulty) (resp : Option GeminiResponse)
    (r1 r2 : ℚ) (noiseAt : Nat → ℚ) (h0 : 0 ≤ r2) (h1 : r2 < 1) :
    findBestMove O false resp p difficulty r1 r2 noiseAt = some (O.toRec m) := by
  rw [findBestMove_local O resp p difficulty r1 r2 noiseAt hgo, hmv]
  have hz : ⌊r2⌋ = 0 := Int.floor_eq_zero_iff.mpr ⟨h0, h1⟩
  by_cases hrand : (difficultySettings difficulty).makeRandomMoves = true ∧
      r1 < (difficultySettings difficulty).randomMoveChance
  · rw [if_pos hrand]
    simp [hz]
  · rw [if_neg hrand]
    obtain ⟨v, hv⟩ := rootScore_fin O hwf p (difficultySettings difficulty).depth m
    by_cases hc : O.turn p = Color.w
    · rw [if_pos hc, scoreLoop_cons]
      have hlt : XScore.negInf <
          XScore.addQ (rootScore O p (difficultySettings difficulty).depth m)
            ((noiseAt 0 * 2 - 1) * (difficultySettings difficulty).evaluationNoise * 10) := by
        rw [hv]
        exact XScore.negInf_lt_fin _
      rw [if_pos (Or.inl ⟨hc, hlt⟩)]
      rfl
    · have hcb : O.turn p = Color.b := by
        cases h2 : O.turn p with
        | w => exact absurd h2 hc
        | b => rfl
      rw [if_neg hc, scoreLoop_cons]
      have hlt : XScore.addQ (rootScore O p (difficultySettings difficulty).depth m)
          ((noiseAt 0 * 2 - 1) * (difficultySettings difficulty).evaluationNoise * 10) <
          XScore.posInf := by
        rw [hv]
        exact XScore.fin_lt_posInf _
      rw [if_pos (Or.inr ⟨hcb, hlt⟩)]
      rfl

/-- C5 witness for the amended theorem: a live position with the single move
5 is returned at beginner difficulty with random draws 0. -/
theorem findBestMove_forced_move_witness :
    findBestMove forcedOracle false none 0 .beginner 0 0 (fun _ => 0) =
      some (forcedOracle.toRec 5) :=
  findBestMove_forced_move forcedOracle 0 5 forcedOracle_wf rfl rfl .beginner
    none 0 0 (fun _ => 0) (le_refl 0) (by norm_num)

/-- C2: at master difficulty (noise 0, random-move chance 0) with the remote
path disabled, `findBestMove` returns a legal root move whose open-window
search score at `depth - 1` is maximal among all legal moves when white is to
move and minimal when black is to move — the selection is exactly the minimax
argmax/argmin over root moves. -/
theorem findBestMove_master_argmax {Pos Mv : Type} (O : Oracle Pos Mv)
    (p : Pos) (hwf : ∀ q, O.isGameOver q = false → O.moves q ≠ [])
    (hgo : O.isGameOver p = false) (resp : Option GeminiResponse)
    (r1 r2 : ℚ) (noiseAt : Nat → ℚ) :
    ∃ mb ∈ O.moves p,
      findBestMove O false resp p .master r1 r2 noiseAt = some (O.toRec mb) ∧
      ∀ m ∈ O.moves p,
        (O.turn p = Color.w →
          rootScore O p (difficultySettings .master).depth m ≤
            rootScore O p (difficultySettings .master).depth mb) ∧
        (O.turn p = Color.b →
          rootScore O p (difficultySettings .master).depth mb ≤
            rootScore O p (difficultySettings .master).depth m) := by
  have hres := findBestMove_local O resp p .master r1 r2 noiseAt hgo
  rw [if_neg (by simp [difficultySettings])] at hres
  obtain ⟨m0, ms0, hms⟩ := List.exists_cons_of_ne_nil (hwf p hgo)
  have hm0 : m0 ∈ O.moves p := by rw [hms]; exact List.mem_cons_self m0 ms0
  by_cases hc : O.turn p = Color.w
  · rw [if_pos hc] at hres
    rcases scoreLoop_argmax_w O (difficultySettings .master) noiseAt ⟨p, []⟩ hc
        rfl (O.moves p) 0 none XScore.negInf (Or.inl ⟨rfl, rfl⟩) with
      ⟨_, hall⟩ | ⟨mb, hmem, hsel, _, hall⟩
    · exfalso
      have hle := hall m0 hm0
      obtain ⟨v, hv⟩ := rootScore_fin O hwf p (difficultySettings .master).depth m0
      rw [hv] at hle
      exact absurd ((XScore.le_negInf_iff _).mp hle) (by simp)
    · refine ⟨mb, hmem, ?_, ?_⟩
      · rw [hres, hsel]
        rfl
      · intro m hm
        refine ⟨fun _ => hall m hm, fun hb => ?_⟩
        rw [hc] at hb
        exact absurd hb (by simp)
  · have hcb : O.turn p = Color.b := by
      cases h2 : O.turn p with
      | w => exact absurd h2 hc
      | b => rfl
    rw [if_neg hc] at hres
    rcases scoreLoop_argmin_b O (difficultySettings .master) noiseAt ⟨p, []⟩ hcb
        rfl (O.moves p) 0 none XScore.posInf (Or.inl ⟨rfl, rfl⟩) with
      ⟨_, hall⟩ | ⟨mb, hmem, hsel, _, hall⟩
    · exfalso
      have hle := hall m0 hm0
      obtain ⟨v, hv⟩ := rootScore_fin O hwf p (difficultySettings .master).depth m0
      rw [hv] at hle
      exact absurd ((XScore.posInf_le_iff _).mp hle) (by simp)
    · refine ⟨mb, hmem, ?_, ?_⟩
      · rw [hres, hsel]
        rfl
      · intro m hm
        refine ⟨fun hw => ?_, fun _ => hall m hm⟩
        rw [hcb] at hw
        exact absurd hw (by simp)

/-- C2 witness: the two-move game at position 0. -/
theorem findBestMove_master_argmax_witness :
    ∃ mb ∈ twoMoveOracle.moves 0,
      findBestMove twoMoveOracle false none 0 .master 0 0 (fun _ => 0) =
        some (twoMoveOracle.toRec mb) ∧
      ∀ m ∈ twoMoveOracle.moves 0,
        (twoMoveOracle.turn 0 = Color.w →
          rootScore twoMoveOracle 0 (difficultySettings .master).depth m ≤
            rootScore twoMoveOracle 0 (difficultySettings .master).depth mb) ∧
        (twoMoveOracle.turn 0 = Color.b →
          rootScore twoMoveOracle 0 (difficultySettings .master).depth mb ≤
            rootScore twoMoveOracle 0 (difficultySettings .master).depth m) :=
  findBestMove_master_argmax twoMoveOracle 0 twoMoveOracle_wf rfl none 0 0
    (fun _ => 0)
